import Mathlib

/-!
# The CSS asset pipeline of `Gruntfile.js`

`Gruntfile.js` is a Grunt configuration: it declares three targets of the
`cssmin` multi-task (`minify`, `combine`, `add_banner`), one target of the
`watch` multi-task (`css`) and the alias task `default`.  The configuration is
embedded here as data, literal for literal.  What the configuration *means* is
given by the Grunt runtime that interprets it; the parts of that runtime the
configuration exercises are embedded as executable functions over an explicit
file system:

* file globbing (`grunt.file.expand`): minimatch patterns made of literal
  characters and `*`; a `*` stays inside one path segment and does not match a
  name starting with a dot; the matches of a pattern come back sorted;
* the dynamic source/destination mapping behind `expand: true`
  (`grunt.file.expandMapping` with `cwd`, `src`, `dest`, `ext`): `ext` replaces
  the extension, which by default (`extDot: 'first'`) starts at the first dot
  of the file name; sources with the same destination share one mapping;
* the `cssmin` task body of grunt-contrib-cssmin in the releases that accept
  `options.banner`: read the sources that exist, minify, write nothing when the
  result is empty, otherwise write the destination, the banner and a line
  break in front when a banner is set;
* a multi-task named without a target runs all its targets in the order of the
  configuration object, and a failing target ends the run;
* grunt-contrib-watch: the tasks of a target run on an event on a watched file
  (by default on every kind of event) and at start-up only with
  `options.atBegin`.

The CSS minifier itself (clean-css), the package metadata, the clock and the
platform line break are parameters, gathered in `Env`.  Failures of the file
system itself (permissions, a missing disk) are not embedded: reading and
writing always work.
-/

namespace Gruntfile

/-! ## File system -/

/-- A file system: the files that exist, as path/content pairs.  The first
pair with a given path is the file's content. -/
abbrev FS := List (String × String)

namespace FS

/-- Content of the file at `p`, if it exists (`grunt.file.read`). -/
def read : FS → String → Option String
  | [], _ => none
  | (q, c) :: rest, p => if q = p then some c else read rest p

/-- Whether a file exists at `p` (`grunt.file.exists`). -/
def fileExists (fs : FS) (p : String) : Bool := (read fs p).isSome

/-- Create or overwrite the file at `p` (`grunt.file.write`). -/
def write (fs : FS) (p c : String) : FS :=
  (p, c) :: fs.filter (fun e => decide (e.1 ≠ p))

/-- Remove the file at `p`. -/
def delete (fs : FS) (p : String) : FS :=
  fs.filter (fun e => decide (e.1 ≠ p))

/-- Paths of the files that exist. -/
def paths (fs : FS) : List String := fs.map Prod.fst

end FS

/-! ## Globbing -/

/-- A `*` in a pattern: any run of characters other than `/`, after which the
rest of the pattern (`k`) has to match. -/
def starMatch (k : List Char → Bool) : List Char → Bool
  | [] => k []
  | c :: cs => k (c :: cs) || (c != '/' && starMatch k cs)

/-- Minimatch on patterns made of literal characters and `*`.  `atStart` says
that the position is the start of a path segment: there a `*` does not match a
name that begins with a dot (minimatch's default `dot: false`). -/
def globMatch : List Char → Bool → List Char → Bool
  | [], _, cs => cs.isEmpty
  | p :: ps, atStart, cs =>
    if p = '*' then
      if atStart && cs.head? == some '.' then false
      else starMatch (fun rest => globMatch ps false rest) cs
    else
      match cs with
      | [] => false
      | c :: cs' => p == c && globMatch ps (c == '/') cs'

/-- Does `path` match `pattern`? -/
def matchesGlob (pattern path : String) : Bool :=
  globMatch pattern.toList true path.toList

/-- Lexicographic order on character sequences, by character code. -/
def lexLt : List Char → List Char → Bool
  | _, [] => false
  | [], _ :: _ => true
  | a :: as, b :: bs => decide (a.toNat < b.toNat) || (a == b && lexLt as bs)

/-- The order in which glob results are returned: lexicographic by path. -/
def pathLt (p q : String) : Bool := lexLt p.toList q.toList

/-- Insert a path into a sorted list, dropping a duplicate. -/
def insertPath (p : String) : List String → List String
  | [] => [p]
  | q :: qs =>
    if pathLt p q then p :: q :: qs
    else if p = q then q :: qs
    else q :: insertPath p qs

/-- Sort paths lexicographically, without duplicates (glob results are
returned sorted). -/
def sortPaths (l : List String) : List String := l.foldr insertPath []

/-- The path `p` relative to the directory prefix `cwd`, when `p` lies under
it. -/
def relativeTo (cwd p : String) : Option String :=
  if cwd.toList.isPrefixOf p.toList then some (String.mk (p.toList.drop cwd.toList.length))
  else none

/-- Whether the file at `p` lies under `cwd` and matches `pattern` relative to
it. -/
def matchesUnder (cwd pattern p : String) : Bool :=
  match relativeTo cwd p with
  | some rel => matchesGlob pattern rel
  | none => false

/-- Files matching one pattern, relative to `cwd`, sorted. -/
def glob (cwd pattern : String) (fs : FS) : List String :=
  sortPaths (((FS.paths fs).filterMap (relativeTo cwd)).filter (matchesGlob pattern))

/-- Union of the matches of several patterns, in pattern order, each file once
(`grunt.file.expand`). -/
def expand (cwd : String) (patterns : List String) (fs : FS) : List String :=
  patterns.foldl (fun acc pat => acc ++ (glob cwd pat fs).filter (fun p => decide (p ∉ acc))) []

/-! ## Source/destination mappings -/

/-- One normalised mapping of a target: the source files and the destination
they are compiled into (an element of `this.files` in a task). -/
structure FilesEntry where
  src : List String
  dest : String
  deriving DecidableEq, Repr

/-- The two ways the configuration declares the files of a target. -/
inductive FilesSpec where
  /-- The form `expand: true, cwd, src, dest, ext`: a mapping built from the
  files that match. -/
  | dynamic (cwd : String) (src : List String) (dest : String) (ext : String)
  /-- The form `files: { dest: src }`: one entry per destination. -/
  | files (pairs : List (String × List String))
  deriving DecidableEq, Repr

/-- Replace the extension of a relative path by `ext`.  The extension starts at
the first dot after which no `/` follows (Grunt's default `extDot: 'first'`,
the regular expression `(\.[^\/]*)?$`); a path without such a dot gets `ext`
appended. -/
def replaceExtChars (ext : List Char) : List Char → List Char
  | [] => ext
  | c :: cs => if c = '.' ∧ '/' ∉ cs then ext else c :: replaceExtChars ext cs

/-- Replace the extension of a relative path, on strings. -/
def replaceExt (rel ext : String) : String :=
  String.mk (replaceExtChars ext.toList rel.toList)

/-- Record that `src` is compiled into `dest`: sources with the same
destination are gathered in one entry, entries keep the order in which their
destination first appeared. -/
def addMapping (dest src : String) : List FilesEntry → List FilesEntry
  | [] => [⟨[src], dest⟩]
  | e :: es =>
    if e.dest = dest then ⟨e.src ++ [src], e.dest⟩ :: es
    else e :: addMapping dest src es

/-- Build the mapping for `expand: true` (`grunt.file.expandMapping`): every
file matching `src` under `cwd` is mapped to `dest` joined with the file's
relative path, its extension replaced by `ext`. -/
def expandMapping (cwd : String) (src : List String) (dest ext : String) (fs : FS) :
    List FilesEntry :=
  (expand cwd src fs).foldl
    (fun acc rel => addMapping (dest ++ replaceExt rel ext) (cwd ++ rel) acc) []

/-- The files of a target, resolved against the file system at the moment the
target runs. -/
def normalizeFiles (spec : FilesSpec) (fs : FS) : List FilesEntry :=
  match spec with
  | .dynamic cwd src dest ext => expandMapping cwd src dest ext fs
  | .files pairs => pairs.map (fun pr => ⟨expand "" pr.2 fs, pr.1⟩)

/-- Whether the file at `p` is matched by a source pattern of the target. -/
def FilesSpec.sourceMatches (spec : FilesSpec) (p : String) : Bool :=
  match spec with
  | .dynamic cwd src _ _ => src.any (fun pat => matchesUnder cwd pat p)
  | .files pairs => pairs.any (fun pr => pr.2.any (fun pat => matchesUnder "" pat p))

/-! ## The environment of a run -/

/-- What the run takes from outside the configuration. -/
structure Env where
  /-- The `name` field of `package.json` (`pkg.name`). -/
  pkgName : String
  /-- The current date rendered with a format mask (`grunt.template.today`). -/
  today : String → String
  /-- The platform line break (`grunt.util.linefeed`). -/
  linefeed : String
  /-- The minifier as the `cssmin` task applies it to the source texts of one
  destination, in order: the minified text, or `none` when minification
  fails. -/
  minify : List String → Option String

/-! ## The configuration -/

/-- One target of the `cssmin` multi-task. -/
structure Target where
  name : String
  /-- The entry `options.banner`, a template rendered when the target runs. -/
  banner : Option (Env → String)
  files : FilesSpec

namespace cssmin

/-- The target `cssmin.minify`. -/
def minify : Target :=
  { name := "minify"
    banner := none
    files := .dynamic "_assets/css/" ["*.css"] "css/" ".min.css" }

/-- The target `cssmin.combine`. -/
def combine : Target :=
  { name := "combine"
    banner := none
    files := .files [("css/site.min.css", ["css/*.css"])] }

/-- The banner template of `cssmin.add_banner`:
`'/*! <%= pkg.name %> <%= grunt.template.today("yyyy-mm-dd") %> */\n'`. -/
def bannerTemplate (env : Env) : String :=
  "/*! " ++ env.pkgName ++ " " ++ env.today "yyyy-mm-dd" ++ " */\n"

/-- The target `cssmin.add_banner`. -/
def add_banner : Target :=
  { name := "add_banner"
    banner := some bannerTemplate
    files := .files [("css/site.min.css", ["css/site.min.css"])] }

/-- The targets of `cssmin`, in the order of the configuration object. -/
def targets : List Target := [minify, combine, add_banner]

end cssmin

/-- The events a watch target reacts to. -/
inductive EventKind where
  | added
  | changed
  | deleted
  deriving DecidableEq, Repr

namespace watch

end watch

/-- The task list registered by `grunt.registerTask('default', ['cssmin'])`. -/
def defaultTasks : List String := ["cssmin"]

/-! ## Running the tasks -/

/-- Why a run stopped. -/
inductive BuildError where
  /-- The minifier failed on the sources of this destination. -/
  | minificationFailed (dest : String)
  /-- A task list names a task that is not registered. -/
  | taskNotFound (task : String)
  deriving DecidableEq, Repr

/-- The `cssmin` task body for one mapping: keep the sources that exist,
minify their contents, write nothing when the result is empty, otherwise write
the destination, with the banner and a line break in front when a banner is
configured. -/
def cssminFile (env : Env) (banner : Option String) (fs : FS) (f : FilesEntry) :
    FS × Option BuildError :=
  let valid := f.src.filter (FS.fileExists fs)
  match env.minify (valid.filterMap (FS.read fs)) with
  | none => (fs, some (.minificationFailed f.dest))
  | some min =>
    if min = "" then (fs, none)
    else
      match banner with
      | some b => (FS.write fs f.dest (b ++ env.linefeed ++ min), none)
      | none => (FS.write fs f.dest min, none)

/-- The `cssmin` task body over the mappings of a target, in order; a failure
stops it and leaves the files written so far. -/
def cssminFiles (env : Env) (banner : Option String) : List FilesEntry → FS → FS × Option BuildError
  | [], fs => (fs, none)
  | f :: rest, fs =>
    match cssminFile env banner fs f with
    | (fs', some e) => (fs', some e)
    | (fs', none) => cssminFiles env banner rest fs'

/-- Run one `cssmin` target on the file system. -/
def runTarget (env : Env) (t : Target) (fs : FS) : FS × Option BuildError :=
  cssminFiles env (t.banner.map (fun tpl => tpl env)) (normalizeFiles t.files fs) fs

/-- The state of a run: the file system, the targets started so far (oldest
first) and the failure that stopped the run, if any. -/
structure Outcome where
  fs : FS
  ran : List String
  error : Option BuildError
  deriving DecidableEq, Repr

/-- Run targets one after the other; the first failure ends the run. -/
def runTargets (env : Env) : List Target → Outcome → Outcome
  | [], o => o
  | t :: ts, o =>
    match runTarget env t o.fs with
    | (fs', some e) => { fs := fs', ran := o.ran ++ [t.name], error := some e }
    | (fs', none) => runTargets env ts { fs := fs', ran := o.ran ++ [t.name], error := none }

/-- Run a task list.  The task `cssmin`, named without a target, stands for all
its targets in configuration order. -/
def runTasks (env : Env) : List String → Outcome → Outcome
  | [], o => o
  | name :: rest, o =>
    if name = "cssmin" then
      match (runTargets env cssmin.targets o).error with
      | some _ => runTargets env cssmin.targets o
      | none => runTasks env rest (runTargets env cssmin.targets o)
    else { o with error := some (.taskNotFound name) }

/-- The `default` task on a file system: one run of the pipeline. -/
def runDefault (env : Env) (fs : FS) : Outcome :=
  runTasks env defaultTasks { fs := fs, ran := [], error := none }

/-! ## Watching -/

/-- A change of one file, as the watcher sees it. -/
structure Event where
  kind : EventKind
  filepath : String
  content : String

/-- The file system after the change. -/
def Event.apply (ev : Event) (fs : FS) : FS :=
  match ev.kind with
  | .added => FS.write fs ev.filepath ev.content
  | .changed => FS.write fs ev.filepath ev.content
  | .deleted => FS.delete fs ev.filepath

/-- A stand-in for the minifier, used to evaluate runs on texts that are
already minimal: it returns the given texts unchanged, one after the other. -/
def joinTexts (texts : List String) : Option String :=
  some (texts.foldl (fun acc t => acc ++ t) "")

/-- Package `mypkg`, built on 2024-01-01, on a platform whose line break is
`\n`. -/
def sampleEnv : Env :=
  { pkgName := "mypkg"
    today := fun _ => "2024-01-01"
    linefeed := "\n"
    minify := joinTexts }

/-! ## Auxiliary notions for the statements -/

/-- A list of paths in strictly increasing order. -/
def StrictSorted (l : List String) : Prop := l.Pairwise (fun a b => pathLt a b = true)

theorem lexLt_irrefl (l : List Char) : lexLt l l = false := by
  induction l with
  | nil => rfl
  | cons a l ih => simp [lexLt, ih]

theorem lexLt_trans : ∀ (a b c : List Char), lexLt a b = true → lexLt b c = true → lexLt a c = true
  | _, [], _, h, _ => by cases ‹List Char› <;> simp [lexLt] at h
  | _, _ :: _, [], _, h => by simp [lexLt] at h
  | [], _ :: _, _ :: _, _, _ => by simp [lexLt]
  | x :: a, y :: b, z :: c, h1, h2 => by
    simp only [lexLt, Bool.or_eq_true, decide_eq_true_eq, Bool.and_eq_true, beq_iff_eq] at h1 h2 ⊢
    rcases h1 with h1 | ⟨rfl, h1⟩
    · rcases h2 with h2 | ⟨rfl, _⟩
      · exact Or.inl (lt_trans h1 h2)
      · exact Or.inl h1
    · rcases h2 with h2 | ⟨rfl, h2⟩
      · exact Or.inl h2
      · exact Or.inr ⟨rfl, lexLt_trans a b c h1 h2⟩

theorem lexLt_total : ∀ (a b : List Char), lexLt a b = false → a ≠ b → lexLt b a = true
  | [], [], _, h => absurd rfl h
  | [], _ :: _, h, _ => by simp [lexLt] at h
  | _ :: _, [], _, _ => by simp [lexLt]
  | x :: a, y :: b, h1, h2 => by
    simp only [lexLt, Bool.or_eq_false_iff, decide_eq_false_iff_not, Bool.and_eq_false_imp,
      beq_iff_eq, not_lt] at h1
    simp only [lexLt, Bool.or_eq_true, decide_eq_true_eq, Bool.and_eq_true, beq_iff_eq]
    by_cases hxy : x = y
    · subst hxy
      refine Or.inr ⟨rfl, lexLt_total a b (h1.2 rfl) ?_⟩
      intro hab
      exact h2 (by rw [hab])
    · refine Or.inl (lt_of_le_of_ne h1.1 ?_)
      intro hn
      exact hxy (by rw [← Char.ofNat_toNat x, ← Char.ofNat_toNat y, hn])

theorem toList_injective {p q : String} (h : p.toList = q.toList) : p = q := by
  cases p
  cases q
  simp only [String.toList] at h
  rw [h]

theorem pathLt_irrefl (p : String) : pathLt p p = false := lexLt_irrefl _

theorem pathLt_trans {p q r : String} (h1 : pathLt p q = true) (h2 : pathLt q r = true) :
    pathLt p r = true := lexLt_trans _ _ _ h1 h2

theorem pathLt_total {p q : String} (h1 : pathLt p q = false) (h2 : p ≠ q) :
    pathLt q p = true :=
  lexLt_total _ _ h1 (fun h => h2 (toList_injective h))

theorem mem_insertPath {x p : String} {l : List String} :
    x ∈ insertPath p l ↔ x = p ∨ x ∈ l := by
  induction l with
  | nil => simp [insertPath]
  | cons q qs ih =>
    unfold insertPath
    split
    · simp
    · split
      · rename_i _ hpq
        subst hpq
        simp
      · simp only [List.mem_cons, ih]
        tauto

theorem mem_sortPaths {x : String} {l : List String} : x ∈ sortPaths l ↔ x ∈ l := by
  induction l with
  | nil => simp [sortPaths]
  | cons a l ih =>
    have : sortPaths (a :: l) = insertPath a (sortPaths l) := rfl
    rw [this, mem_insertPath, ih]
    simp

theorem strictSorted_insertPath {p : String} {l : List String} (h : StrictSorted l) :
    StrictSorted (insertPath p l) := by
  induction l with
  | nil => simp [insertPath, StrictSorted]
  | cons q qs ih =>
    unfold insertPath
    split
    · rename_i hpq
      refine List.Pairwise.cons ?_ h
      intro b hb
      rcases List.mem_cons.mp hb with rfl | hb
      · exact hpq
      · exact pathLt_trans hpq (List.rel_of_pairwise_cons h hb)
    · split
      · exact h
      · rename_i hlt hne
        refine List.Pairwise.cons ?_ (ih (List.Pairwise.of_cons h))
        intro b hb
        rcases mem_insertPath.mp hb with rfl | hb
        · exact pathLt_total (by simpa using hlt) hne
        · exact List.rel_of_pairwise_cons h hb

theorem strictSorted_sortPaths (l : List String) : StrictSorted (sortPaths l) := by
  induction l with
  | nil => simp [sortPaths, StrictSorted]
  | cons a l ih => exact strictSorted_insertPath ih

theorem strictSorted_unique : ∀ {l₁ l₂ : List String}, StrictSorted l₁ → StrictSorted l₂ →
    (∀ x, x ∈ l₁ ↔ x ∈ l₂) → l₁ = l₂
  | [], [], _, _, _ => rfl
  | [], b :: _, _, _, h => by simpa using (h b)
  | a :: _, [], _, _, h => by simpa using (h a)
  | a :: l₁, b :: l₂, h₁, h₂, h => by
    have hab : a = b := by
      by_contra hne
      have ha : a ∈ l₂ := by
        have := (h a).mp (List.mem_cons_self _ _)
        rcases List.mem_cons.mp this with h' | h'
        · exact absurd h' hne
        · exact h'
      have hb : b ∈ l₁ := by
        have := (h b).mpr (List.mem_cons_self _ _)
        rcases List.mem_cons.mp this with h' | h'
        · exact absurd h'.symm hne
        · exact h'
      have h1 := List.rel_of_pairwise_cons h₁ hb
      have h2 := List.rel_of_pairwise_cons h₂ ha
      have := pathLt_trans h1 h2
      rw [pathLt_irrefl] at this
      exact Bool.noConfusion this
    subst hab
    have hna₁ : a ∉ l₁ := fun hm => by
      have := List.rel_of_pairwise_cons h₁ hm
      rw [pathLt_irrefl] at this
      exact Bool.noConfusion this
    have hna₂ : a ∉ l₂ := fun hm => by
      have := List.rel_of_pairwise_cons h₂ hm
      rw [pathLt_irrefl] at this
      exact Bool.noConfusion this
    have : l₁ = l₂ := by
      refine strictSorted_unique (List.Pairwise.of_cons h₁) (List.Pairwise.of_cons h₂) ?_
      intro x
      constructor
      · intro hx
        rcases List.mem_cons.mp ((h x).mp (List.mem_cons_of_mem _ hx)) with h' | h'
        · exact absurd (h' ▸ hx) hna₁
        · exact h'
      · intro hx
        rcases List.mem_cons.mp ((h x).mpr (List.mem_cons_of_mem _ hx)) with h' | h'
        · exact absurd (h' ▸ hx) hna₂
        · exact h'
    rw [this]

theorem sortPaths_eq_of_strictSorted {l s : List String} (hs : StrictSorted s)
    (h : ∀ x, x ∈ l ↔ x ∈ s) : sortPaths l = s :=
  strictSorted_unique (strictSorted_sortPaths l) hs (fun x => by rw [mem_sortPaths, h])

/-- A pattern without `*` matches exactly itself. -/
theorem globMatch_literal (pat : List Char) (hp : '*' ∉ pat) (b : Bool) (cs : List Char) :
    globMatch pat b cs = true ↔ cs = pat := by
  induction pat generalizing b cs with
  | nil => cases cs <;> simp [globMatch]
  | cons p ps ih =>
    simp only [List.mem_cons, not_or] at hp
    have hne : p ≠ '*' := fun h => hp.1 h.symm
    cases cs with
    | nil => simp [globMatch, hne]
    | cons c cs =>
      simp only [globMatch, hne, if_false, Bool.and_eq_true, beq_iff_eq, ih hp.2,
        List.cons.injEq]
      constructor
      · rintro ⟨rfl, rfl⟩
        exact ⟨rfl, rfl⟩
      · rintro ⟨rfl, rfl⟩
        exact ⟨rfl, rfl⟩

theorem relativeTo_eq_some {cwd p n : String} :
    relativeTo cwd p = some n ↔ p.toList = cwd.toList ++ n.toList := by
  unfold relativeTo
  constructor
  · intro h
    split at h
    · rename_i hpre
      obtain ⟨t, ht⟩ := List.isPrefixOf_iff_prefix.mp hpre
      simp only [Option.some.injEq] at h
      rw [← h, ← ht]
      simp
    · exact absurd h (by simp)
  · intro h
    have hpre : cwd.toList.isPrefixOf p.toList = true :=
      List.isPrefixOf_iff_prefix.mpr ⟨n.toList, h.symm⟩
    rw [if_pos hpre, h]
    simp

theorem relativeTo_empty (p : String) : relativeTo "" p = some p :=
  relativeTo_eq_some.mpr (by simp [String.toList])

theorem matchesUnder_empty (pattern p : String) :
    matchesUnder "" pattern p = matchesGlob pattern p := by
  simp [matchesUnder, relativeTo_empty]

theorem mem_glob {cwd pattern rel : String} {fs : FS} :
    rel ∈ glob cwd pattern fs ↔
      (∃ p ∈ FS.paths fs, relativeTo cwd p = some rel) ∧ matchesGlob pattern rel = true := by
  simp [glob, mem_sortPaths, List.mem_filter, List.mem_filterMap]

theorem expand_single (cwd pattern : String) (fs : FS) :
    expand cwd [pattern] fs = glob cwd pattern fs := by
  simp [expand]

theorem mem_glob_empty {pattern p : String} {fs : FS} :
    p ∈ glob "" pattern fs ↔ p ∈ FS.paths fs ∧ matchesGlob pattern p = true := by
  rw [mem_glob]
  simp [relativeTo_empty]

theorem read_delete (fs : FS) (p q : String) :
    FS.read (FS.delete fs p) q = if p = q then none else FS.read fs q := by
  induction fs with
  | nil => simp [FS.delete, FS.read]
  | cons e rest ih =>
    obtain ⟨r, d⟩ := e
    unfold FS.delete at ih ⊢
    by_cases hr : r = p
    · subst hr
      rw [List.filter_cons, if_neg (by simp), ih]
      by_cases h : r = q
      · simp [h]
      · simp [h, FS.read]
    · rw [List.filter_cons, if_pos (by simpa using hr)]
      by_cases h : p = q
      · subst h
        simp only [FS.read, hr, if_false, ih, if_true]
      · simp only [FS.read, ih, h, if_false]

theorem read_write (fs : FS) (p c q : String) :
    FS.read (FS.write fs p c) q = if p = q then some c else FS.read fs q := by
  have h := read_delete fs p q
  unfold FS.delete at h
  by_cases hpq : p = q
  · simp [FS.write, FS.read, hpq]
  · simp only [FS.write, FS.read, hpq, if_false] at h ⊢
    exact h

theorem fileExists_iff_mem_paths (fs : FS) (p : String) :
    FS.fileExists fs p = true ↔ p ∈ FS.paths fs := by
  induction fs with
  | nil => simp [FS.fileExists, FS.read, FS.paths]
  | cons e rest ih =>
    obtain ⟨r, d⟩ := e
    by_cases hr : r = p
    · simp [FS.fileExists, FS.read, FS.paths, hr]
    · have hne : ¬ p = r := fun h => hr h.symm
      simp only [FS.fileExists, FS.read, hr, if_false, FS.paths, List.map_cons, List.mem_cons,
        hne, false_or]
      exact ih

theorem mem_paths_write (fs : FS) (p c q : String) :
    q ∈ FS.paths (FS.write fs p c) ↔ q = p ∨ q ∈ FS.paths fs := by
  rw [← fileExists_iff_mem_paths, ← fileExists_iff_mem_paths, FS.fileExists, FS.fileExists,
    read_write]
  by_cases h : p = q
  · simp [h]
  · have hne : ¬ q = p := fun h' => h h'.symm
    simp [h, hne]

/-- The files matched by a pattern without `*`: the file of that name, when it
exists. -/
theorem glob_literal (pattern : String) (hp : '*' ∉ pattern.toList) (fs : FS) :
    glob "" pattern fs = if FS.fileExists fs pattern then [pattern] else [] := by
  have hm : ∀ x, matchesGlob pattern x = true ↔ x = pattern := by
    intro x
    rw [matchesGlob, globMatch_literal _ hp]
    exact ⟨toList_injective, fun h => by rw [h]⟩
  refine sortPaths_eq_of_strictSorted ?_ ?_
  · split <;> simp [StrictSorted]
  · intro x
    simp only [List.mem_filter, List.mem_filterMap, relativeTo_empty, Option.some.injEq,
      exists_eq_right, hm]
    split
    · rename_i he
      rw [fileExists_iff_mem_paths] at he
      simp only [List.mem_singleton]
      constructor
      · exact fun h => h.2
      · intro h
        exact ⟨h ▸ he, h⟩
    · rename_i he
      rw [fileExists_iff_mem_paths] at he
      simp only [List.not_mem_nil, iff_false, not_and]
      intro h1 h2
      exact he (h2 ▸ h1)

/-! ## The claims about the configuration and the task order -/

/-- C1: for every environment and file system, the `default` task (registered
as `['cssmin']`) runs the targets `minify`, `combine`, `add_banner` in that
order, each on the file system the previous one left; when a target fails, no
later target is started and its failure is the result of the run. -/
theorem runDefault_runs_targets_in_order (env : Env) (fs : FS) :
    runDefault env fs =
      match runTarget env cssmin.minify fs with
      | (fs₁, some e) => { fs := fs₁, ran := ["minify"], error := some e }
      | (fs₁, none) =>
        match runTarget env cssmin.combine fs₁ with
        | (fs₂, some e) => { fs := fs₂, ran := ["minify", "combine"], error := some e }
        | (fs₂, none) =>
          { fs := (runTarget env cssmin.add_banner fs₂).1
            ran := ["minify", "combine", "add_banner"]
            error := (runTarget env cssmin.add_banner fs₂).2 } := by
  simp only [runDefault, defaultTasks, runTasks, if_true, cssmin.targets, runTargets]
  rcases h₁ : runTarget env cssmin.minify fs with ⟨fs₁, _ | e₁⟩
  · simp only []
    rcases h₂ : runTarget env cssmin.combine fs₁ with ⟨fs₂, _ | e₂⟩
    · simp only []
      rcases h₃ : runTarget env cssmin.add_banner fs₂ with ⟨fs₃, _ | e₃⟩ <;> rfl
    · rfl
  · rfl

/-- A run that fails: when the minifier rejects the first source, the run ends
in `minify` with that failure, and neither `combine` nor `add_banner` is
started. -/
theorem runDefault_stops_at_first_failure :
    runDefault { sampleEnv with minify := fun _ => none }
        [("_assets/css/a.css", "a <")] =
      { fs := [("_assets/css/a.css", "a <")]
        ran := ["minify"]
        error := some (.minificationFailed "css/a.min.css") } := by
  decide

/-- C5: whatever the file system, `combine` has one mapping and it writes
`css/site.min.css`; `add_banner` has one mapping, it writes `css/site.min.css`
and reads no file other than `css/site.min.css`, namely that file when it
exists. -/
theorem combined_output_path_invariant (fs : FS) :
    (normalizeFiles cssmin.combine.files fs).map FilesEntry.dest = ["css/site.min.css"] ∧
    normalizeFiles cssmin.add_banner.files fs =
      [{ src := if FS.fileExists fs "css/site.min.css" then ["css/site.min.css"] else []
         dest := "css/site.min.css" }] := by
  refine ⟨rfl, ?_⟩
  simp only [cssmin.add_banner, normalizeFiles, List.map_cons, List.map_nil, expand_single,
    glob_literal _ (by decide : '*' ∉ "css/site.min.css".toList)]

theorem toList_append (a b : String) : (a ++ b).toList = a.toList ++ b.toList :=
  String.data_append a b

/-- A `cssmin` mapping never removes a file. -/
theorem fileExists_cssminFile (env : Env) (banner : Option String) (fs : FS) (f : FilesEntry)
    (p : String) (h : FS.fileExists fs p = true) :
    FS.fileExists (cssminFile env banner fs f).1 p = true := by
  have hw : ∀ c : String, FS.fileExists (FS.write fs f.dest c) p = true := by
    intro c
    rw [fileExists_iff_mem_paths, mem_paths_write]
    exact Or.inr ((fileExists_iff_mem_paths fs p).mp h)
  simp only [cssminFile]
  split
  · exact h
  · split
    · exact h
    · split
      · exact hw _
      · exact hw _

/-- A `cssmin` target never removes a file. -/
theorem fileExists_cssminFiles (env : Env) (banner : Option String) (p : String) :
    ∀ (files : List FilesEntry) (fs : FS), FS.fileExists fs p = true →
      FS.fileExists (cssminFiles env banner files fs).1 p = true
  | [], _, h => h
  | f :: rest, fs, h => by
    have h₁ := fileExists_cssminFile env banner fs f p h
    unfold cssminFiles
    rcases hc : cssminFile env banner fs f with ⟨fs', _ | e⟩
    · rw [hc] at h₁
      exact fileExists_cssminFiles env banner p rest fs' h₁
    · rw [hc] at h₁
      exact h₁

/-- The defect behind C3, for every environment: when `css/site.min.css`
exists at the start of a run (as it does after a successful earlier run),
`combine` takes it as one of its sources, because its pattern `css/*.css`
matches its own destination. -/
theorem combine_reads_previous_output (env : Env) (fs : FS)
    (h : FS.fileExists fs "css/site.min.css" = true) :
    "css/site.min.css" ∈
      expand "" ["css/*.css"] (runTarget env cssmin.minify fs).1 := by
  rw [expand_single, mem_glob_empty]
  refine ⟨?_, by decide⟩
  rw [← fileExists_iff_mem_paths]
  exact fileExists_cssminFiles env _ _ _ fs h

/-- C3 at a failing input: sources `a.css` and `b.css`, an empty `css/`, two
runs on the same day with the same package name.  The first run writes the
banner and the two minified rules; the second run reads that file as a third
source of `combine`, so its `css/site.min.css` holds the first run's content a
second time and differs from the first run's. -/
theorem second_build_differs :
    FS.read (runDefault sampleEnv
        [("_assets/css/a.css", ".a{color:red}"), ("_assets/css/b.css", ".b{color:blue}")]).fs
        "css/site.min.css" =
      some "/*! mypkg 2024-01-01 */\n\n.a{color:red}.b{color:blue}" ∧
    expand "" ["css/*.css"] (runTarget sampleEnv cssmin.minify (runDefault sampleEnv
        [("_assets/css/a.css", ".a{color:red}"), ("_assets/css/b.css", ".b{color:blue}")]).fs).1
      = ["css/a.min.css", "css/b.min.css", "css/site.min.css"] ∧
    FS.read (runDefault sampleEnv (runDefault sampleEnv
        [("_assets/css/a.css", ".a{color:red}"), ("_assets/css/b.css", ".b{color:blue}")]).fs).fs
        "css/site.min.css" =
      some ("/*! mypkg 2024-01-01 */\n\n.a{color:red}.b{color:blue}" ++
        "/*! mypkg 2024-01-01 */\n\n.a{color:red}.b{color:blue}") ∧
    FS.read (runDefault sampleEnv (runDefault sampleEnv
        [("_assets/css/a.css", ".a{color:red}"), ("_assets/css/b.css", ".b{color:blue}")]).fs).fs
        "css/site.min.css" ≠
      FS.read (runDefault sampleEnv
        [("_assets/css/a.css", ".a{color:red}"), ("_assets/css/b.css", ".b{color:blue}")]).fs
        "css/site.min.css" := by
  decide

/-! ## What `minify` writes -/

/-- The files the source pattern of `minify` selects are the files `minify`
expands its mapping from: a file of the file system matches the pattern
exactly when it is `_assets/css/<n>` for a name `n` the expansion returns. -/
theorem minify_sources_iff_expand (fs : FS) (p : String) (hp : p ∈ FS.paths fs) :
    cssmin.minify.files.sourceMatches p = true ↔
      ∃ n ∈ expand "_assets/css/" ["*.css"] fs, p = "_assets/css/" ++ n := by
  simp only [cssmin.minify, FilesSpec.sourceMatches, List.any_cons, List.any_nil,
    Bool.or_false, matchesUnder, expand_single, mem_glob]
  constructor
  · intro h
    cases hr : relativeTo "_assets/css/" p with
    | none => simp [hr] at h
    | some n =>
      rw [hr] at h
      refine ⟨n, ⟨⟨p, hp, hr⟩, h⟩, ?_⟩
      apply toList_injective
      rw [toList_append]
      exact relativeTo_eq_some.mp hr
  · rintro ⟨n, ⟨_, hm⟩, rfl⟩
    have hr : relativeTo "_assets/css/" ("_assets/css/" ++ n) = some n :=
      relativeTo_eq_some.mpr (toList_append _ _)
    rw [hr]
    exact hm

end Gruntfile
